import Mathlib

/-!
Verification of the userspace resource manager core (CocoTable concurrency
coordinator, rate limiter, client data manager, garbage collector) and of the
contextual classifier inference entry point.

The repository ships the CocoTable, RateLimiter, ClientDataManager and
ClientGarbageCollector as headers only; their operational behaviour is
modelled here from the specification text (each such definition carries a
doc comment that says so).  The classifier (MLInference::Classify and
MLInference::predict) is embedded from its source.
-/

/-- Priorities are the four levels SystemHigh > ThirdPartyHigh > SystemLow >
ThirdPartyLow, encoded by rank: 3 = SystemHigh, 2 = ThirdPartyHigh,
1 = SystemLow, 0 = ThirdPartyLow.  A larger rank wins. -/
abbrev Priority := Fin 4

/-- One CocoNode per (request, resource sub-target): the owning request's
handle and the post-clamp value the node wants applied. -/
structure CocoNode where
  handle : Nat
  value : Int
deriving DecidableEq

/-- The four per-resource policies of the resource table. -/
inductive Policy
  | instantApply
  | higherIsBetter
  | lowerIsBetter
  | lazyApply
deriving DecidableEq

/-- Modelled from the spec: HigherIsBetter insertion keeps the list a
non-increasing sequence by value, ties broken by insertion order (the older
node stays nearer the head), so the new node moves past every node whose
value is at least its own. -/
def insertHigherIsBetter (n : CocoNode) : List CocoNode → List CocoNode
  | [] => [n]
  | x :: xs => if n.value ≤ x.value then x :: insertHigherIsBetter n xs else n :: x :: xs

/-- Modelled from the spec: LowerIsBetter keeps the list non-decreasing by
value with the same tie break. -/
def insertLowerIsBetter (n : CocoNode) : List CocoNode → List CocoNode
  | [] => [n]
  | x :: xs => if x.value ≤ n.value then x :: insertLowerIsBetter n xs else n :: x :: xs

/-- Modelled from the spec: CocoTable::insertInCocoTable places a node in the
doubly linked list of its (sub-target, priority) slot according to the
resource policy: InstantApply pushes to the head, HigherIsBetter and
LowerIsBetter keep the list sorted, LazyApply pushes to the tail. -/
def insertInCocoTable : Policy → CocoNode → List CocoNode → List CocoNode
  | .instantApply, n, l => n :: l
  | .higherIsBetter, n, l => insertHigherIsBetter n l
  | .lowerIsBetter, n, l => insertLowerIsBetter n l
  | .lazyApply, n, l => l ++ [n]

/-- The four priority lists of one resource sub-target. -/
abbrev PrioLists := Priority → List CocoNode

/-- Replace the list stored at one priority slot. -/
def updLists (L : PrioLists) (p : Priority) (l : List CocoNode) : PrioLists :=
  fun q => if q = p then l else L q

/-- Scan the priority slots below rank k, highest rank first, for the first
non-empty list. -/
def scanDown (L : PrioLists) : Nat → Option Priority
  | 0 => none
  | k + 1 =>
    if hk : k < 4 then
      if L ⟨k, hk⟩ = [] then scanDown L k else some ⟨k, hk⟩
    else scanDown L k

/-- The highest priority whose list is non-empty, if any. -/
def highestNonEmpty (L : PrioLists) : Option Priority := scanDown L 4

/-- Modelled from the spec: the per-sub-target slice of the CocoTable: the
four priority lists, the value last successfully written by the applier,
the currently-applied priority scalar (CocoTable::mCurrentlyAppliedPriority,
none when no request is active), and the default value cached at init. -/
structure CocoState where
  lists : PrioLists
  appliedValue : Int
  appliedPriority : Option Priority
  defaultValue : Int

/-- Value of the head node of a list, or a fallback for the empty list. -/
def headValD (l : List CocoNode) (d : Int) : Int :=
  match l with
  | [] => d
  | x :: _ => x.value

/-- Modelled from the spec: a freshly inserted head drives the applier only
when its priority is at least the currently-applied priority; with no active
request every priority qualifies. -/
def applyGate (s : CocoState) (p : Priority) : Bool :=
  match s.appliedPriority with
  | none => true
  | some q => decide (q ≤ p)

/-- Modelled from the spec: CocoTable::insertRequest for one (resource,
sub-target, value) triple: insert the CocoNode by policy, and if the node is
now the head of its list and passes the priority gate, run applyAction: the
applier writes the node value and the currently-applied priority is updated. -/
def insertRequest (pol : Policy) (n : CocoNode) (p : Priority) (s : CocoState) : CocoState :=
  if (insertInCocoTable pol n (s.lists p)).head? = some n ∧ applyGate s p = true then
    { lists := updLists s.lists p (insertInCocoTable pol n (s.lists p)),
      appliedValue := n.value, appliedPriority := some p,
      defaultValue := s.defaultValue }
  else
    { s with lists := updLists s.lists p (insertInCocoTable pol n (s.lists p)) }

/-- Does some node of the list belong to the request with this handle. -/
def hasHandle (l : List CocoNode) (h : Nat) : Bool :=
  l.any (fun x => x.handle == h)

/-- Scan the priority slots below rank k for a list holding the handle. -/
def findScan (L : PrioLists) (h : Nat) : Nat → Option Priority
  | 0 => none
  | k + 1 =>
    if hk : k < 4 then
      if hasHandle (L ⟨k, hk⟩) h then some ⟨k, hk⟩ else findScan L h k
    else findScan L h k

/-- The priority slot whose list holds the node of this handle, if any. -/
def findPriority (L : PrioLists) (h : Nat) : Option Priority := findScan L h 4

/-- Unlink the first node with the given handle from a list. -/
def eraseHandle (h : Nat) : List CocoNode → List CocoNode
  | [] => []
  | x :: xs => if x.handle == h then xs else x :: eraseHandle h xs

/-- Scan downward starting at priority p (inclusive) for the first non-empty
list, as the removal cascade of the spec does. -/
def scanFromPriority (L : PrioLists) (p : Priority) : Option Priority :=
  scanDown L (p.val + 1)

/-- Modelled from the spec: CocoTable::removeRequest for one sub-target:
unlink the handle's node; if it was the head of the currently-applied
priority, the next head at the same priority or the first non-empty lower
priority takes over (applier runs with its value), and with all lists empty
the tear callback restores the cached default; an unknown handle is a no-op. -/
def removeRequest (h : Nat) (s : CocoState) : CocoState :=
  match findPriority s.lists h with
  | none => s
  | some p =>
    if (s.lists p).head?.map CocoNode.handle = some h ∧ s.appliedPriority = some p then
      match scanFromPriority (updLists s.lists p (eraseHandle h (s.lists p))) p with
      | some q =>
        { lists := updLists s.lists p (eraseHandle h (s.lists p)),
          appliedValue :=
            headValD (updLists s.lists p (eraseHandle h (s.lists p)) q) s.defaultValue,
          appliedPriority := some q, defaultValue := s.defaultValue }
      | none =>
        { lists := updLists s.lists p (eraseHandle h (s.lists p)),
          appliedValue := s.defaultValue, appliedPriority := none,
          defaultValue := s.defaultValue }
    else { s with lists := updLists s.lists p (eraseHandle h (s.lists p)) }

/-- The boot state of a sub-target: empty lists, the cached default on the
wire, no currently-applied priority. -/
def initCocoState (d : Int) : CocoState :=
  { lists := fun _ => [], appliedValue := d, appliedPriority := none, defaultValue := d }

/-- One serialized request seen by the single consumer thread. -/
inductive CocoOp
  | tune (pol : Policy) (n : CocoNode) (p : Priority)
  | untune (h : Nat)

/-- Apply one serialized request to the sub-target state. -/
def applyCocoOp (s : CocoState) : CocoOp → CocoState
  | .tune pol n p => insertRequest pol n p s
  | .untune h => removeRequest h s

/-- Run a serialized request stream from boot. -/
def runCoco (d : Int) (ops : List CocoOp) : CocoState :=
  ops.foldl applyCocoOp (initCocoState d)

/-- The applier/head invariant: the currently-applied priority scalar names
the highest non-empty priority list, and the value last written by the
applier is that list's head value, or the cached default when all four lists
are empty. -/
def cocoInvariant (s : CocoState) : Prop :=
  s.appliedPriority = highestNonEmpty s.lists ∧
  s.appliedValue =
    (match highestNonEmpty s.lists with
     | some p => headValD (s.lists p) s.defaultValue
     | none => s.defaultValue)

/-- A list is non-increasing by node value. -/
def nonIncreasing (l : List CocoNode) : Prop :=
  List.Chain' (fun a b => b.value ≤ a.value) l

/-- Total number of linked nodes carrying a handle across the four lists. -/
def handleCount (L : PrioLists) (h : Nat) : Nat :=
  (L 0).countP (fun x => x.handle == h) + (L 1).countP (fun x => x.handle == h) +
  (L 2).countP (fun x => x.handle == h) + (L 3).countP (fun x => x.handle == h)

/-- Modelled from the spec: the sub-target slice of the table together with
the per-request expiry timers (absolute fire instants, keyed by handle). -/
structure TableState where
  coco : CocoState
  timers : Nat → Option Int

/-- Modelled from the spec: CocoTable::updateRequest (Retune): locate the
request by handle and restart its timer to fire at now + duration; an
unknown handle leaves the table untouched. -/
def updateRequest (h : Nat) (duration now : Int) (s : TableState) : TableState :=
  match s.timers h with
  | none => s
  | some _ =>
    { s with timers := fun k => if k = h then some (now + duration) else s.timers k }

/-- Modelled from the spec: a full Untune: unlink the handle's nodes from the
sub-target lists and cancel its expiry timer (cancellation is idempotent). -/
def untuneFull (h : Nat) (s : TableState) : TableState :=
  { coco := removeRequest h s.coco,
    timers := fun k => if k = h then none else s.timers k }

/-- Rate limiter configuration: admission window delta (ms), penalty and
reward factors, and the global concurrent-request cap. -/
structure RLConfig where
  delta : Int
  penaltyFactor : ℚ
  rewardFactor : ℚ
  maxConcurrentRequests : Nat

/-- Per-TID client tracking data used by the rate limiter: health and the
timestamp of the last request (0 means no prior request). -/
structure ClientTidData where
  health : ℚ
  lastRequestTimestamp : Int
deriving DecidableEq

/-- Modelled from the spec: one admission event of
RateLimiter::isRateLimitHonored for a single TID: if the elapsed time since
the last request is strictly below delta the health drops by the penalty
factor, otherwise it rises by the reward factor capped at 100; the timestamp
is updated; the request is accepted exactly when the resulting health is
strictly positive. -/
def rateLimiterStep (cfg : RLConfig) (now : Int) (t : ClientTidData) : Bool × ClientTidData :=
  let elapsed := now - t.lastRequestTimestamp
  let health :=
    if elapsed < cfg.delta then t.health - cfg.penaltyFactor
    else min (t.health + cfg.rewardFactor) 100
  (decide (0 < health), { health := health, lastRequestTimestamp := now })

/-- Look up a TID entry in the client data manager table. -/
def lookupTid : List (Nat × ClientTidData) → Nat → Option ClientTidData
  | [], _ => none
  | e :: es, tid => if e.1 == tid then some e.2 else lookupTid es tid

/-- Store a TID entry, replacing an existing one. -/
def writeTid : List (Nat × ClientTidData) → Nat → ClientTidData → List (Nat × ClientTidData)
  | [], tid, t => [(tid, t)]
  | e :: es, tid, t => if e.1 == tid then (tid, t) :: es else e :: writeTid es tid t

/-- Modelled from the spec: RateLimiter::isRateLimitHonored over the client
data manager: read the TID state (a fresh client starts at health 100 with
no prior request), run the admission step, store the updated state. -/
def isRateLimitHonored (cfg : RLConfig) (now : Int) (tid : Nat)
    (cdm : List (Nat × ClientTidData)) : Bool × List (Nat × ClientTidData) :=
  let t := (lookupTid cdm tid).getD { health := 100, lastRequestTimestamp := 0 }
  let r := rateLimiterStep cfg now t
  (r.1, writeTid cdm tid r.2)

/-- Run a sequence of admission events for one TID. -/
def runRateLimiter (cfg : RLConfig) (t : ClientTidData) (times : List Int) : ClientTidData :=
  times.foldl (fun acc now => (rateLimiterStep cfg now acc).2) t

/-- The four admission failures the caller can observe. -/
inductive AdmissionError
  | rateLimitDenied
  | globalCapacityExceeded
  | permissionDenied
  | tooManyThreads
deriving DecidableEq

/-- Server-side state threaded through admission: the CocoTable sub-target,
the client data manager, and the count of concurrently active requests. -/
structure SysState where
  coco : CocoState
  cdm : List (Nat × ClientTidData)
  activeRequests : Nat

/-- Modelled from the spec: the admission pipeline in front of the CocoTable:
permission check, per-client thread cap, per-client rate limiting, global
concurrent-request cap; only a request passing all four reaches
insertRequest.  Rejections are surfaced to the caller. -/
def processTune (cfg : RLConfig) (now : Int) (permitted : Bool) (threadCapExceeded : Bool)
    (tid : Nat) (pol : Policy) (n : CocoNode) (p : Priority) (s : SysState) :
    Except AdmissionError Unit × SysState :=
  if permitted = false then (.error .permissionDenied, s)
  else if threadCapExceeded = true then (.error .tooManyThreads, s)
  else
    let r := isRateLimitHonored cfg now tid s.cdm
    let s₁ : SysState := { s with cdm := r.2 }
    if r.1 = false then (.error .rateLimitDenied, s₁)
    else if cfg.maxConcurrentRequests ≤ s.activeRequests then
      (.error .globalCapacityExceeded, s₁)
    else
      (.ok (), { coco := insertRequest pol n p s.coco, cdm := r.2,
                 activeRequests := s.activeRequests + 1 })

/-- Whether the daemon is up. -/
inductive StartupStatus
  | running
  | aborted
deriving DecidableEq

/-- CocoTable::getInstance from the source: an existing singleton is
returned as is; otherwise the constructor runs and a failed allocation
(std::bad_alloc) yields the null instance. -/
def getInstance (existing : Option Unit) (allocationSucceeds : Bool) : Option Unit :=
  match existing with
  | some inst => some inst
  | none => if allocationSucceeds then some () else none

/-- Modelled from the spec: startup aborts when allocating the core
CocoTable singleton fails (fatal out-of-memory during init). -/
def serverStartup (allocationSucceeds : Bool) : StartupStatus :=
  match getInstance none allocationSucceeds with
  | none => .aborted
  | some _ => .running

/-- Outcome of one request after startup. -/
inductive RequestOutcome
  | accepted
  | rejectedValidation
deriving DecidableEq

/-- Modelled from the spec: an out-of-memory failure while processing a
single request after startup is treated as a validation failure: the request
is rejected, no table state changes, and the server keeps running. -/
def handleRequestWithAllocation (allocationSucceeds : Bool) (pol : Policy) (n : CocoNode)
    (p : Priority) (s : CocoState) : RequestOutcome × CocoState × StartupStatus :=
  if allocationSucceeds then (.accepted, insertRequest pol n p s, .running)
  else (.rejectedValidation, s, .running)

/-- Garbage collector state: the FIFO queue of PIDs nominated by the pulse
monitor, and the client data manager entries (PID with its live handles). -/
structure GcState where
  gcQueue : List Nat
  clientEntries : List (Nat × List Nat)
deriving DecidableEq

/-- Look up the tracked handles of a PID. -/
def lookupClient : List (Nat × List Nat) → Nat → Option (List Nat)
  | [], _ => none
  | e :: es, pid => if e.1 == pid then some e.2 else lookupClient es pid

/-- Drop every tracking entry of a PID. -/
def eraseClient (cdm : List (Nat × List Nat)) (pid : Nat) : List (Nat × List Nat) :=
  cdm.filter (fun e => !(e.1 == pid))

/-- Mark all handles of a PID as torn down. -/
def clearClientHandles (cdm : List (Nat × List Nat)) (pid : Nat) : List (Nat × List Nat) :=
  cdm.map (fun e => if e.1 == pid then (e.1, ([] : List Nat)) else e)

/-- Modelled from the spec: cleanup of one dead PID inside
ClientGarbageCollector::performCleanup: with live handles remaining, a
synthetic Untune is submitted for each (they complete before the next tick)
and the PID is re-enqueued at the tail; with no handles left the PID and TID
entries are erased; an untracked PID is skipped. -/
def cleanupClient (s : GcState) (pid : Nat) : GcState :=
  match lookupClient s.clientEntries pid with
  | none => s
  | some hs =>
    if hs = [] then { s with clientEntries := eraseClient s.clientEntries pid }
    else { gcQueue := s.gcQueue ++ [pid],
           clientEntries := clearClientHandles s.clientEntries pid }

/-- Modelled from the spec: one garbage collector tick: dequeue at most
batchCap PIDs and clean each in order. -/
def performCleanup (batchCap : Nat) (s : GcState) : GcState :=
  (s.gcQueue.take batchCap).foldl cleanupClient { s with gcQueue := s.gcQueue.drop batchCap }

/-- A PID is fully cleaned, or its handles are gone and it waits in the
queue for its entry to be erased. -/
def gcSettled (s : GcState) (pid : Nat) : Prop :=
  lookupClient s.clientEntries pid = none ∨
  (lookupClient s.clientEntries pid = some [] ∧ pid ∈ s.gcQueue)

/-- The classification labels of the contextual classifier (CC_TYPE). -/
inductive CC_TYPE
  | CC_APP
  | CC_BROWSER
  | CC_GAME
  | CC_MULTIMEDIA
deriving DecidableEq

/-- The wire codes of CC_TYPE from the source header. -/
def CC_TYPE.code : CC_TYPE → Int
  | .CC_APP => 1
  | .CC_BROWSER => 2
  | .CC_GAME => 3
  | .CC_MULTIMEDIA => 4

/-- The nine feature columns MLInference reads, in source order. -/
def textCols : List String :=
  ["attr", "cgroup", "cmdline", "comm", "maps", "fds", "environ", "exe", "logs"]

/-- MLInference::normalize_text lowercases the feature text character by
character. -/
def normalizeText (s : String) : String := String.mk (s.data.map Char.toLower)

/-- Find a collected feature by column name. -/
def lookupFeature (raw : List (String × String)) (c : String) : Option String :=
  (raw.find? (fun kv => kv.1 == c)).map (fun kv => kv.2)

/-- The concatenated text MLInference::predict builds: per column the
normalized value plus a space (just a space for a missing column), with one
trailing space popped. -/
def concatenatedText (raw : List (String × String)) : String :=
  let t := textCols.foldl
    (fun acc c =>
      acc ++ (match lookupFeature raw c with
              | some v => normalizeText v ++ " "
              | none => " ")) ""
  if t.data.getLast? = some ' ' then String.mk t.data.dropLast else t

/-- MLInference::predict: empty concatenated text or an empty prediction set
yields the label Unknown with return code 1; otherwise the top label is
stripped of its __label__ marker and returned with code 0.  The fastText
model call itself is abstracted as the optional top label. -/
def predict (raw : List (String × String)) (ftLabel : Option String) : String × Nat :=
  let text := concatenatedText raw
  if text = "" then ("Unknown", 1)
  else
    match ftLabel with
    | none => ("Unknown", 1)
    | some lbl =>
      (if lbl.data.take 9 = "__label__".data then String.mk (lbl.data.drop 9) else lbl, 0)

/-- The has_sufficient_features test of MLInference::Classify: at least one
collected feature string is non-empty. -/
def hasSufficientFeatures (raw : List (String × String)) : Bool :=
  raw.any (fun kv => !(kv.2 == ""))

/-- The label-to-enum mapping block of MLInference::Classify: app, browser,
game and media select their enum value and anything else falls back to the
CC_APP default. -/
def labelToType (lbl : String) : CC_TYPE :=
  if lbl = "app" then .CC_APP
  else if lbl = "browser" then .CC_BROWSER
  else if lbl = "game" then .CC_GAME
  else if lbl = "media" then .CC_MULTIMEDIA
  else .CC_APP

/-- MLInference::Classify from the source: the context type defaults to
CC_APP; a failed collection, a vanished /proc directory (checked before and
after the feature test), insufficient features, a failed prediction (the
predicted label is cleared), or an unrecognized label all leave the
default; only the labels browser, game and media select another type. -/
def Classify (collectRc : Int) (procAlive1 procAlive2 : Bool)
    (raw : List (String × String)) (ftLabel : Option String) : CC_TYPE :=
  if collectRc ≠ 0 then .CC_APP
  else if procAlive1 = false then .CC_APP
  else if hasSufficientFeatures raw then
    if procAlive2 = false then .CC_APP
    else
      labelToType
        (if (predict raw ftLabel).2 ≠ 0 then "" else (predict raw ftLabel).1)
  else .CC_APP

/-- A sub-target state reached by one InstantApply SystemHigh tune followed
by one InstantApply ThirdPartyLow tune; used as a concrete evaluation
point. -/
def exampleLowTune : CocoState :=
  insertRequest .instantApply ⟨2, 3⟩ 0
    (insertRequest .instantApply ⟨1, 5⟩ 3 (initCocoState 0))

/-- A concrete table with one active node (handle 5) and its timer. -/
def exampleTable : TableState :=
  { coco := insertRequest .instantApply ⟨5, 7⟩ 2 (initCocoState 1),
    timers := fun k => if k = 5 then some 40 else none }

/-- A concrete rate limiter configuration: delta 5 ms, penalty 2,
reward 2/5, global cap 10. -/
def exampleConfig : RLConfig :=
  { delta := 5, penaltyFactor := 2, rewardFactor := 2 / 5, maxConcurrentRequests := 10 }

/-- Fifty-one admission instants spaced 1 ms apart starting at 1. -/
def exampleTimes : List Int :=
  [1, 2, 3, 4, 5, 6, 7, 8, 9, 10, 11, 12, 13, 14, 15, 16, 17, 18, 19, 20, 21, 22, 23,
   24, 25, 26, 27, 28, 29, 30, 31, 32, 33, 34, 35, 36, 37, 38, 39, 40, 41, 42, 43, 44,
   45, 46, 47, 48, 49, 50, 51]

/-- A concrete server state with one tracked client. -/
def exampleSys : SysState :=
  { coco := initCocoState 0,
    cdm := [(1, { health := 100, lastRequestTimestamp := 0 })],
    activeRequests := 0 }

/-- A garbage collector state with three dead PIDs queued of which the last
still holds a handle. -/
def exampleGcBacklog : GcState :=
  { gcQueue := [1, 2, 3], clientEntries := [(3, [7])] }

/-- A garbage collector state whose queue fits in one batch. -/
def exampleGcSmall : GcState :=
  { gcQueue := [4, 9], clientEntries := [(4, [11, 12]), (9, [])] }

/-! Helper lemmas about the priority scan. -/

theorem scanDown_none_iff (L : PrioLists) (k : Nat) :
    scanDown L k = none ↔ ∀ q : Priority, q.val < k → L q = [] := by
  induction k with
  | zero => simp [scanDown]
  | succ k ih =>
    by_cases hk : k < 4
    · by_cases hL : L ⟨k, hk⟩ = []
      · rw [scanDown, dif_pos hk, if_pos hL, ih]
        constructor
        · intro h q hq
          rcases Nat.lt_succ_iff_lt_or_eq.mp hq with h1 | h1
          · exact h q h1
          · have hq2 : q = ⟨k, hk⟩ := Fin.ext h1
            rw [hq2]; exact hL
        · intro h q hq
          exact h q (Nat.lt_succ_of_lt hq)
      · rw [scanDown, dif_pos hk, if_neg hL]
        constructor
        · intro h; exact absurd h (by simp)
        · intro h
          exact absurd (h ⟨k, hk⟩ (Nat.lt_succ_self k)) hL
    · rw [scanDown, dif_neg hk, ih]
      constructor
      · intro h q hq
        have := q.isLt
        exact h q (by omega)
      · intro h q hq
        exact h q (Nat.lt_succ_of_lt hq)

theorem scanDown_some (L : PrioLists) (k : Nat) (q : Priority)
    (h : scanDown L k = some q) :
    L q ≠ [] ∧ q.val < k ∧ ∀ r : Priority, q.val < r.val → r.val < k → L r = [] := by
  induction k with
  | zero => simp [scanDown] at h
  | succ k ih =>
    by_cases hk : k < 4
    · by_cases hL : L ⟨k, hk⟩ = []
      · rw [scanDown, dif_pos hk, if_pos hL] at h
        obtain ⟨h1, h2, h3⟩ := ih h
        refine ⟨h1, Nat.lt_succ_of_lt h2, ?_⟩
        intro r hr hr2
        rcases Nat.lt_succ_iff_lt_or_eq.mp hr2 with h4 | h4
        · exact h3 r hr h4
        · have hr3 : r = ⟨k, hk⟩ := Fin.ext h4
          rw [hr3]; exact hL
      · rw [scanDown, dif_pos hk, if_neg hL] at h
        have hq : q = ⟨k, hk⟩ := by
          cases h; rfl
        subst hq
        refine ⟨hL, Nat.lt_succ_self k, ?_⟩
        intro r hr hr2
        have hk2 : (⟨k, hk⟩ : Priority).val = k := rfl
        omega
    · rw [scanDown, dif_neg hk] at h
      obtain ⟨h1, h2, h3⟩ := ih h
      refine ⟨h1, Nat.lt_succ_of_lt h2, ?_⟩
      intro r hr hr2
      have := r.isLt
      exact h3 r hr (by omega)

theorem scanDown_intro (L : PrioLists) (k : Nat) (q : Priority)
    (hk : q.val < k) (hne : L q ≠ [])
    (htop : ∀ r : Priority, q.val < r.val → r.val < k → L r = []) :
    scanDown L k = some q := by
  induction k with
  | zero => omega
  | succ k ih =>
    by_cases hk4 : k < 4
    · by_cases hqk : q.val = k
      · have hq : (⟨k, hk4⟩ : Priority) = q := Fin.ext hqk.symm
        rw [scanDown, dif_pos hk4, if_neg (hq ▸ hne)]
        rw [hq]
      · have hqlt : q.val < k := by omega
        have hLk : L ⟨k, hk4⟩ = [] := htop ⟨k, hk4⟩ hqlt (Nat.lt_succ_self k)
        rw [scanDown, dif_pos hk4, if_pos hLk]
        exact ih hqlt (fun r hr hr2 => htop r hr (Nat.lt_succ_of_lt hr2))
    · have := q.isLt
      rw [scanDown, dif_neg hk4]
      exact ih (by omega) (fun r hr hr2 => htop r hr (Nat.lt_succ_of_lt hr2))

theorem updLists_same (L : PrioLists) (p : Priority) (l : List CocoNode) :
    updLists L p l p = l := by
  simp [updLists]

theorem updLists_other (L : PrioLists) (p : Priority) (l : List CocoNode)
    (q : Priority) (h : q ≠ p) : updLists L p l q = L q := by
  simp [updLists, h]

/-! Helper lemmas about policy insertion. -/

theorem insertInCocoTable_nil (pol : Policy) (n : CocoNode) :
    insertInCocoTable pol n [] = [n] := by
  cases pol <;> rfl

theorem insertInCocoTable_ne_nil (pol : Policy) (n : CocoNode) (l : List CocoNode) :
    insertInCocoTable pol n l ≠ [] := by
  cases pol with
  | instantApply => simp [insertInCocoTable]
  | higherIsBetter =>
    cases l with
    | nil => simp [insertInCocoTable, insertHigherIsBetter]
    | cons x xs =>
      simp only [insertInCocoTable, insertHigherIsBetter]
      split <;> simp
  | lowerIsBetter =>
    cases l with
    | nil => simp [insertInCocoTable, insertLowerIsBetter]
    | cons x xs =>
      simp only [insertInCocoTable, insertLowerIsBetter]
      split <;> simp
  | lazyApply => simp [insertInCocoTable]

theorem insertInCocoTable_head (pol : Policy) (n : CocoNode) (l : List CocoNode) :
    (insertInCocoTable pol n l).head? = some n ∨
    ((insertInCocoTable pol n l).head? = l.head? ∧ l ≠ []) := by
  cases pol with
  | instantApply => left; rfl
  | higherIsBetter =>
    cases l with
    | nil => left; rfl
    | cons x xs =>
      simp only [insertInCocoTable, insertHigherIsBetter]
      by_cases h : n.value ≤ x.value
      · right; rw [if_pos h]; simp
      · left; rw [if_neg h]; rfl
  | lowerIsBetter =>
    cases l with
    | nil => left; rfl
    | cons x xs =>
      simp only [insertInCocoTable, insertLowerIsBetter]
      by_cases h : x.value ≤ n.value
      · right; rw [if_pos h]; simp
      · left; rw [if_neg h]; rfl
  | lazyApply =>
    cases l with
    | nil => left; rfl
    | cons x xs => right; simp [insertInCocoTable]

theorem headValD_of_head (l : List CocoNode) (d : Int) (x : CocoNode)
    (h : l.head? = some x) : headValD l d = x.value := by
  cases l <;> simp_all [headValD]

theorem headValD_congr (l l₂ : List CocoNode) (d : Int)
    (h : l.head? = l₂.head?) : headValD l d = headValD l₂ d := by
  cases l <;> cases l₂ <;> simp_all [headValD]

theorem scanDown_ext_high (L : PrioLists) (k m : Nat) (hkm : k ≤ m)
    (he : ∀ r : Priority, k ≤ r.val → r.val < m → L r = []) :
    scanDown L m = scanDown L k := by
  induction m with
  | zero =>
    have : k = 0 := by omega
    rw [this]
  | succ m ih =>
    rcases Nat.lt_succ_iff_lt_or_eq.mp (Nat.lt_succ_of_le hkm) with h1 | h1
    · by_cases hm : m < 4
      · have hLm : L ⟨m, hm⟩ = [] := he ⟨m, hm⟩ (show k ≤ m by omega) (Nat.lt_succ_self m)
        rw [scanDown, dif_pos hm, if_pos hLm]
        exact ih (by omega) (fun r hr hr2 => he r hr (Nat.lt_succ_of_lt hr2))
      · rw [scanDown, dif_neg hm]
        exact ih (by omega) (fun r hr hr2 => he r hr (Nat.lt_succ_of_lt hr2))
    · rw [h1]

theorem findScan_some (L : PrioLists) (h : Nat) (k : Nat) (p : Priority)
    (hf : findScan L h k = some p) : hasHandle (L p) h = true := by
  induction k with
  | zero => simp [findScan] at hf
  | succ k ih =>
    by_cases hk : k < 4
    · by_cases hh : hasHandle (L ⟨k, hk⟩) h
      · rw [findScan, dif_pos hk, if_pos hh] at hf
        cases hf
        exact hh
      · rw [findScan, dif_pos hk, if_neg hh] at hf
        exact ih hf
    · rw [findScan, dif_neg hk] at hf
      exact ih hf

theorem findScan_none_intro (L : PrioLists) (h : Nat) (k : Nat)
    (hall : ∀ q : Priority, hasHandle (L q) h = false) : findScan L h k = none := by
  induction k with
  | zero => rfl
  | succ k ih =>
    by_cases hk : k < 4
    · rw [findScan, dif_pos hk, if_neg (by rw [hall ⟨k, hk⟩]; simp)]
      exact ih
    · rw [findScan, dif_neg hk]
      exact ih

/-! Preservation of the applier/head invariant by the two table operations. -/

theorem cocoInvariant_insert (pol : Policy) (n : CocoNode) (p : Priority) (s : CocoState)
    (hs : cocoInvariant s) : cocoInvariant (insertRequest pol n p s) := by
  obtain ⟨hP, hV⟩ := hs
  have hne : insertInCocoTable pol n (s.lists p) ≠ [] :=
    insertInCocoTable_ne_nil pol n (s.lists p)
  cases hap : s.appliedPriority with
  | none =>
    have hnone : highestNonEmpty s.lists = none := by rw [← hP, hap]
    have hempty : ∀ q : Priority, s.lists q = [] := by
      intro q
      exact (scanDown_none_iff s.lists 4).mp hnone q q.isLt
    have hl'n : insertInCocoTable pol n (s.lists p) = [n] := by
      rw [hempty p, insertInCocoTable_nil]
    have hhead : (insertInCocoTable pol n (s.lists p)).head? = some n := by
      rw [hl'n]; rfl
    have hgate : applyGate s p = true := by simp [applyGate, hap]
    have hhigh :
        highestNonEmpty (updLists s.lists p (insertInCocoTable pol n (s.lists p))) = some p := by
      apply scanDown_intro
      · exact p.isLt
      · rw [updLists_same, hl'n]; simp
      · intro r h1 h2
        rw [updLists_other _ _ _ _ (by intro he; rw [he] at h1; omega)]
        exact hempty r
    rw [insertRequest, if_pos ⟨hhead, hgate⟩]
    refine ⟨hhigh.symm, ?_⟩
    simp only [hhigh, updLists_same]
    rw [hl'n]
    rfl
  | some q =>
    have hq : highestNonEmpty s.lists = some q := by rw [← hP, hap]
    obtain ⟨hqne, _, hqtop⟩ := scanDown_some _ _ _ hq
    by_cases hle : q ≤ p
    · have hgate : applyGate s p = true := by simp [applyGate, hap, hle]
      have hqp : q.val ≤ p.val := hle
      have htop : ∀ r : Priority, p.val < r.val →
          updLists s.lists p (insertInCocoTable pol n (s.lists p)) r = [] := by
        intro r hr
        rw [updLists_other _ _ _ _ (by intro he; rw [he] at hr; omega)]
        exact hqtop r (by omega) r.isLt
      by_cases hhead : (insertInCocoTable pol n (s.lists p)).head? = some n
      · have hhigh :
            highestNonEmpty (updLists s.lists p (insertInCocoTable pol n (s.lists p)))
              = some p := by
          apply scanDown_intro
          · exact p.isLt
          · rw [updLists_same]; exact hne
          · intro r h1 _
            exact htop r h1
        rw [insertRequest, if_pos ⟨hhead, hgate⟩]
        refine ⟨hhigh.symm, ?_⟩
        simp only [hhigh, updLists_same]
        rw [headValD_of_head _ _ _ hhead]
      · rw [insertRequest, if_neg (fun hcon => hhead hcon.1)]
        rcases insertInCocoTable_head pol n (s.lists p) with hh | ⟨hh, hnil⟩
        · exact absurd hh hhead
        · have hpq : p = q := by
            by_contra hne2
            have hv : p.val ≠ q.val := fun hv => hne2 (Fin.ext hv)
            exact hnil (hqtop p (by omega) p.isLt)
          subst hpq
          have hhigh :
              highestNonEmpty (updLists s.lists p (insertInCocoTable pol n (s.lists p)))
                = some p := by
            apply scanDown_intro
            · exact p.isLt
            · rw [updLists_same]; exact hne
            · intro r h1 _
              exact htop r h1
          refine ⟨?_, ?_⟩
          · show s.appliedPriority = _
            rw [hap, hhigh]
          · simp only [hhigh, updLists_same]
            rw [headValD_congr _ _ s.defaultValue hh, hV, hq]
    · have hgate : applyGate s p = false := by
        simp [applyGate, hap, hle]
      have hplt : p.val < q.val := by
        have h1 : ¬ q.val ≤ p.val := fun hcon => hle hcon
        omega
      rw [insertRequest, if_neg (fun hcon => by rw [hgate] at hcon; exact absurd hcon.2 (by simp))]
      have hhigh :
          highestNonEmpty (updLists s.lists p (insertInCocoTable pol n (s.lists p)))
            = some q := by
        apply scanDown_intro
        · exact q.isLt
        · rw [updLists_other _ _ _ _ (by intro he; rw [he] at hplt; omega)]
          exact hqne
        · intro r h1 _
          rw [updLists_other _ _ _ _ (by intro he; rw [he] at h1; omega)]
          exact hqtop r h1 r.isLt
      refine ⟨?_, ?_⟩
      · show s.appliedPriority = _
        rw [hap, hhigh]
      · simp only [hhigh]
        rw [updLists_other _ _ _ _ (show q ≠ p by intro he; rw [he] at hplt; omega), hV, hq]

theorem cocoInvariant_remove (h : Nat) (s : CocoState) (hs : cocoInvariant s) :
    cocoInvariant (removeRequest h s) := by
  obtain ⟨hP, hV⟩ := hs
  cases hf : findPriority s.lists h with
  | none =>
    simp only [removeRequest, hf]
    exact ⟨hP, hV⟩
  | some p =>
    have hhas : hasHandle (s.lists p) h = true := findScan_some _ _ _ _ hf
    have hlp : s.lists p ≠ [] := by
      intro heq
      rw [heq] at hhas
      simp [hasHandle] at hhas
    cases hqe : highestNonEmpty s.lists with
    | none =>
      exact absurd ((scanDown_none_iff _ _).mp hqe p p.isLt) hlp
    | some q =>
      obtain ⟨hqne, _, hqtop⟩ := scanDown_some _ _ _ hqe
      have hple : p.val ≤ q.val := by
        by_contra hgt
        exact hlp (hqtop p (by omega) p.isLt)
      have hap : s.appliedPriority = some q := by rw [hP, hqe]
      by_cases hwh : (s.lists p).head?.map CocoNode.handle = some h ∧ s.appliedPriority = some p
      · have hpq : p = q := by
          have h2 := hwh.2
          rw [hap] at h2
          exact (Option.some.inj h2).symm
        subst hpq
        simp only [removeRequest, hf]
        rw [if_pos hwh]
        have hhighL' :
            highestNonEmpty (updLists s.lists p (eraseHandle h (s.lists p)))
              = scanFromPriority (updLists s.lists p (eraseHandle h (s.lists p))) p := by
          show scanDown _ 4 = scanDown _ (p.val + 1)
          apply scanDown_ext_high
          · have := p.isLt
            omega
          · intro r hr hr2
            rw [updLists_other _ _ _ _ (show r ≠ p by intro he2; rw [he2] at hr; omega)]
            exact hqtop r (by omega) r.isLt
        cases hcas : scanFromPriority (updLists s.lists p (eraseHandle h (s.lists p))) p with
        | some r =>
          refine ⟨?_, ?_⟩
          · show some r = _
            rw [hhighL', hcas]
          · simp only [hhighL', hcas]
        | none =>
          refine ⟨?_, ?_⟩
          · show (none : Option Priority) = _
            rw [hhighL', hcas]
          · simp only [hhighL', hcas]
      · simp only [removeRequest, hf]
        rw [if_neg hwh]
        by_cases hpq : p = q
        · subst hpq
          have hh2 : ¬ (s.lists p).head?.map CocoNode.handle = some h := by
            intro hcon
            exact hwh ⟨hcon, hap⟩
          obtain ⟨x, xs, hsl⟩ := List.exists_cons_of_ne_nil hlp
          have hxh : (x.handle == h) = false := by
            rw [beq_eq_false_iff_ne]
            intro hxeq
            exact hh2 (by rw [hsl]; simp [hxeq])
          have herase : eraseHandle h (s.lists p) = x :: eraseHandle h xs := by
            rw [hsl]
            simp [eraseHandle, hxh]
          have hhighL' :
              highestNonEmpty (updLists s.lists p (eraseHandle h (s.lists p))) = some p := by
            apply scanDown_intro
            · exact p.isLt
            · rw [updLists_same, herase]
              simp
            · intro r h1 _
              rw [updLists_other _ _ _ _ (show r ≠ p by intro he2; rw [he2] at h1; omega)]
              exact hqtop r h1 r.isLt
          have hhighL2 : highestNonEmpty (updLists s.lists p (x :: eraseHandle h xs)) = some p := by
            rw [← herase]
            exact hhighL'
          have hval : s.appliedValue = x.value := by
            rw [hV, hqe]
            show headValD (s.lists p) s.defaultValue = x.value
            rw [hsl]
            rfl
          refine ⟨?_, ?_⟩
          · show s.appliedPriority = _
            rw [hap, herase, hhighL2]
          · simp only [herase, hhighL2, updLists_same, headValD]
            exact hval
        · have hplt : p.val < q.val := by
            have : p.val ≠ q.val := fun hv => hpq (Fin.ext hv)
            omega
          have hhighL' :
              highestNonEmpty (updLists s.lists p (eraseHandle h (s.lists p))) = some q := by
            apply scanDown_intro
            · exact q.isLt
            · rw [updLists_other _ _ _ _ (show q ≠ p by intro he2; rw [he2] at hplt; omega)]
              exact hqne
            · intro r h1 _
              rw [updLists_other _ _ _ _ (show r ≠ p by intro he2; rw [he2] at h1; omega)]
              exact hqtop r h1 r.isLt
          refine ⟨?_, ?_⟩
          · show s.appliedPriority = _
            rw [hap, hhighL']
          · simp only [hhighL']
            rw [updLists_other _ _ _ _ (show q ≠ p by intro he2; rw [he2] at hplt; omega),
              hV, hqe]

theorem cocoInvariant_fold (ops : List CocoOp) (s : CocoState) (hs : cocoInvariant s) :
    cocoInvariant (ops.foldl applyCocoOp s) := by
  induction ops generalizing s with
  | nil => exact hs
  | cons op rest ih =>
    rw [List.foldl_cons]
    apply ih
    cases op with
    | tune pol n p => exact cocoInvariant_insert pol n p s hs
    | untune h => exact cocoInvariant_remove h s hs

theorem cocoInvariant_init (d : Int) : cocoInvariant (initCocoState d) := ⟨rfl, rfl⟩

/-- C1: at every point of the serialized request stream, the value last
successfully written by the applier equals the head value of the highest
non-empty priority list of the sub-target (the cached default when all four
lists are empty), and the currently-applied priority scalar names exactly
that highest non-empty list. -/
theorem c1_applied_value_tracks_highest_head (d : Int) (ops : List CocoOp) :
    cocoInvariant (runCoco d ops) :=
  cocoInvariant_fold ops (initCocoState d) (cocoInvariant_init d)

/-! Sortedness of HigherIsBetter insertion. -/

theorem nonIncreasing_all (x : CocoNode) (xs : List CocoNode)
    (hc : nonIncreasing (x :: xs)) : ∀ y ∈ xs, y.value ≤ x.value := by
  induction xs generalizing x with
  | nil =>
    intro y hy
    cases hy
  | cons z zs ih =>
    intro y hy
    have hx := List.chain'_cons.mp hc
    rcases List.mem_cons.mp hy with rfl | hy2
    · exact hx.1
    · exact le_trans (ih z hx.2 y hy2) hx.1

theorem insertHigherIsBetter_sorted (n : CocoNode) (l : List CocoNode)
    (hl : nonIncreasing l) : nonIncreasing (insertHigherIsBetter n l) := by
  induction l with
  | nil => simp [insertHigherIsBetter, nonIncreasing]
  | cons x xs ih =>
    simp only [insertHigherIsBetter]
    by_cases hx : n.value ≤ x.value
    · rw [if_pos hx]
      cases xs with
      | nil =>
        simp only [insertHigherIsBetter]
        exact List.chain'_cons.mpr ⟨hx, List.chain'_singleton n⟩
      | cons z zs =>
        have hdec := List.chain'_cons.mp hl
        have hins := ih hdec.2
        simp only [insertHigherIsBetter] at hins ⊢
        by_cases hz : n.value ≤ z.value
        · rw [if_pos hz] at hins ⊢
          exact List.chain'_cons.mpr ⟨hdec.1, hins⟩
        · rw [if_neg hz] at hins ⊢
          exact List.chain'_cons.mpr ⟨hx, hins⟩
    · rw [if_neg hx]
      exact List.chain'_cons.mpr ⟨le_of_lt (lt_of_not_le hx), hl⟩

theorem insertHigherIsBetter_split (n : CocoNode) (l : List CocoNode)
    (hl : nonIncreasing l) :
    ∃ l₁ l₂, l = l₁ ++ l₂ ∧ insertHigherIsBetter n l = l₁ ++ n :: l₂ ∧
      (∀ y ∈ l₁, n.value ≤ y.value) ∧ (∀ y ∈ l₂, y.value < n.value) := by
  induction l with
  | nil => exact ⟨[], [], rfl, rfl, by simp, by simp⟩
  | cons x xs ih =>
    by_cases hx : n.value ≤ x.value
    · obtain ⟨l₁, l₂, he, hi, h1, h2⟩ := ih hl.tail
      refine ⟨x :: l₁, l₂, by rw [List.cons_append, ← he], ?_, ?_, h2⟩
      · simp only [insertHigherIsBetter, if_pos hx]
        rw [hi]
        rfl
      · intro y hy
        rcases List.mem_cons.mp hy with rfl | hy2
        · exact hx
        · exact h1 y hy2
    · refine ⟨[], x :: xs, rfl, by simp [insertHigherIsBetter, if_neg hx], by simp, ?_⟩
      intro y hy
      rcases List.mem_cons.mp hy with rfl | hy2
      · exact lt_of_not_le hx
      · exact lt_of_le_of_lt (nonIncreasing_all x xs hl y hy2) (lt_of_not_le hx)

/-- C2 counterexample: with an InstantApply resource, a SystemHigh node
(value 5) active and a new ThirdPartyLow tune (value 3), the new node does
become the head of its own priority list but does not own the applied
value, which stays 5; so a Tune insertion under InstantApply does not
always immediately own the applied value. -/
theorem c2_counterexample :
    (exampleLowTune.lists 0).head? = some ⟨2, 3⟩ ∧
    exampleLowTune.appliedValue = 5 ∧ exampleLowTune.appliedValue ≠ 3 := by
  decide

/-- C2 (amended): an InstantApply insertion always pushes the new node to
the head of its priority list, and the new node immediately owns the
applied value whenever its priority passes the gate (at least the
currently-applied priority); a HigherIsBetter insertion keeps the list
non-increasing by value and places the new node after every older node of
value at least its own and before every node of strictly smaller value. -/
theorem c2_policy_insertion_order :
    (∀ (n : CocoNode) (l : List CocoNode), insertInCocoTable .instantApply n l = n :: l) ∧
    (∀ (n : CocoNode) (p : Priority) (s : CocoState), applyGate s p = true →
      ((insertRequest .instantApply n p s).lists p).head? = some n ∧
      (insertRequest .instantApply n p s).appliedValue = n.value) ∧
    (∀ (n : CocoNode) (l : List CocoNode), nonIncreasing l →
      nonIncreasing (insertHigherIsBetter n l) ∧
      ∃ l₁ l₂, l = l₁ ++ l₂ ∧ insertHigherIsBetter n l = l₁ ++ n :: l₂ ∧
        (∀ y ∈ l₁, n.value ≤ y.value) ∧ (∀ y ∈ l₂, y.value < n.value)) := by
  refine ⟨fun n l => rfl, ?_,
    fun n l hl => ⟨insertHigherIsBetter_sorted n l hl, insertHigherIsBetter_split n l hl⟩⟩
  intro n p s hg
  have hhead : (insertInCocoTable .instantApply n (s.lists p)).head? = some n := rfl
  rw [insertRequest, if_pos ⟨hhead, hg⟩]
  constructor
  · show (updLists s.lists p (insertInCocoTable .instantApply n (s.lists p)) p).head? = some n
    rw [updLists_same]
    rfl
  · rfl

/-- C2 witness: the amended statement evaluated at a fresh sub-target and at
a concrete sorted two-node list. -/
theorem c2_policy_insertion_order_witness :
    ((insertRequest .instantApply ⟨9, 4⟩ 2 (initCocoState 0)).lists 2).head? = some ⟨9, 4⟩ ∧
    nonIncreasing (insertHigherIsBetter ⟨3, 4⟩ [⟨1, 9⟩, ⟨2, 4⟩]) :=
  ⟨(c2_policy_insertion_order.2.1 ⟨9, 4⟩ 2 (initCocoState 0) (by decide)).1,
   (c2_policy_insertion_order.2.2 ⟨3, 4⟩ [⟨1, 9⟩, ⟨2, 4⟩] (by
    unfold nonIncreasing
    exact List.chain'_cons.mpr ⟨by decide, List.chain'_singleton _⟩)).1⟩

/-- C3: a Retune on an active handle restarts its timer to fire at
now + duration, in particular also when the new fire instant is earlier
than the previously scheduled one (shortening is honored, not rejected). -/
theorem c3_retune_restarts_timer (s : TableState) (h : Nat) (e duration now : Int)
    (he : s.timers h = some e) :
    (updateRequest h duration now s).timers h = some (now + duration) ∧
    (now + duration < e →
      (updateRequest h duration now s).timers h = some (now + duration)) := by
  have h1 : (updateRequest h duration now s).timers h = some (now + duration) := by
    simp only [updateRequest, he]
    simp
  exact ⟨h1, fun _ => h1⟩

/-- C3 witness: shortening a 40 ms deadline to fire at 33 is honored. -/
theorem c3_retune_restarts_timer_witness :
    (updateRequest 5 3 30 exampleTable).timers 5 = some (30 + 3) :=
  (c3_retune_restarts_timer exampleTable 5 40 3 30 rfl).2 (by decide)

/-! Association list lemmas for the client data manager. -/

theorem lookupTid_write_self (cdm : List (Nat × ClientTidData)) (tid : Nat)
    (t : ClientTidData) : lookupTid (writeTid cdm tid t) tid = some t := by
  induction cdm with
  | nil => simp [writeTid, lookupTid]
  | cons e es ih =>
    by_cases he : (e.1 == tid) = true
    · simp [writeTid, lookupTid, he]
    · simp [writeTid, lookupTid, he, ih]

theorem lookupTid_write_other (cdm : List (Nat × ClientTidData)) (tid tid₂ : Nat)
    (t : ClientTidData) (hne : tid₂ ≠ tid) :
    lookupTid (writeTid cdm tid t) tid₂ = lookupTid cdm tid₂ := by
  have htt : (tid == tid₂) = false := by
    rw [beq_eq_false_iff_ne]
    exact fun hh => hne hh.symm
  induction cdm with
  | nil => simp [writeTid, lookupTid, htt]
  | cons e es ih =>
    by_cases he : (e.1 == tid) = true
    · have he2 : e.1 = tid := eq_of_beq he
      have he3 : (e.1 == tid₂) = false := by
        rw [beq_eq_false_iff_ne, he2]
        exact fun hh => hne hh.symm
      simp [writeTid, lookupTid, he, htt, he3]
    · simp [writeTid, lookupTid, he, ih]

/-- C4: one admission event for a tracked TID: with elapsed time strictly
below delta the health falls by the penalty factor, otherwise it rises by
the reward factor capped at 100; the last-request timestamp becomes now;
the request is accepted exactly when the resulting health is strictly
positive (a resulting health of exactly 0 is rejected); entries of other
TIDs are untouched. -/
theorem c4_rate_limiter_admission (cfg : RLConfig) (now : Int) (tid : Nat)
    (cdm : List (Nat × ClientTidData)) (t : ClientTidData)
    (hl : lookupTid cdm tid = some t) :
    ((isRateLimitHonored cfg now tid cdm).1 = true ↔
        0 < (rateLimiterStep cfg now t).2.health) ∧
    (now - t.lastRequestTimestamp < cfg.delta →
      lookupTid (isRateLimitHonored cfg now tid cdm).2 tid =
        some { health := t.health - cfg.penaltyFactor, lastRequestTimestamp := now }) ∧
    (cfg.delta ≤ now - t.lastRequestTimestamp →
      lookupTid (isRateLimitHonored cfg now tid cdm).2 tid =
        some { health := min (t.health + cfg.rewardFactor) 100,
               lastRequestTimestamp := now }) ∧
    ((rateLimiterStep cfg now t).2.health = 0 →
      (isRateLimitHonored cfg now tid cdm).1 = false) ∧
    (∀ tid₂, tid₂ ≠ tid →
      lookupTid (isRateLimitHonored cfg now tid cdm).2 tid₂ = lookupTid cdm tid₂) := by
  have hstep : isRateLimitHonored cfg now tid cdm =
      ((rateLimiterStep cfg now t).1, writeTid cdm tid (rateLimiterStep cfg now t).2) := by
    simp [isRateLimitHonored, hl]
  rw [hstep]
  refine ⟨?_, ?_, ?_, ?_, ?_⟩
  · simp [rateLimiterStep]
  · intro hlt
    rw [lookupTid_write_self]
    simp [rateLimiterStep, hlt]
  · intro hge
    rw [lookupTid_write_self]
    simp [rateLimiterStep, not_lt.mpr hge]
  · intro h0
    simp only [rateLimiterStep] at h0 ⊢
    rw [h0]
    simp
  · intro tid₂ hne
    exact lookupTid_write_other cdm tid tid₂ _ hne

/-- C4 witness: a tracked client at health 100 sending again 3 ms after its
last request inside a 5 ms delta is penalized by 2, its timestamp becomes 3,
and an unrelated TID entry is unchanged. -/
theorem c4_rate_limiter_admission_witness :
    lookupTid (isRateLimitHonored exampleConfig 3 1
        [(1, { health := 100, lastRequestTimestamp := 0 })]).2 1 =
      some { health := (100 : ℚ) - exampleConfig.penaltyFactor,
             lastRequestTimestamp := 3 } ∧
    lookupTid (isRateLimitHonored exampleConfig 3 1
        [(1, { health := 100, lastRequestTimestamp := 0 })]).2 2 =
      lookupTid [(1, { health := 100, lastRequestTimestamp := 0 })] 2 :=
  ⟨(c4_rate_limiter_admission exampleConfig 3 1
      [(1, { health := 100, lastRequestTimestamp := 0 })]
      { health := 100, lastRequestTimestamp := 0 } rfl).2.1 (by decide),
   (c4_rate_limiter_admission exampleConfig 3 1
      [(1, { health := 100, lastRequestTimestamp := 0 })]
      { health := 100, lastRequestTimestamp := 0 } rfl).2.2.2.2 2 (by decide)⟩

/-- C5 counterexample: with the delta 5 ms / penalty 2 / reward 0.4
configuration of the specification, a client starting at health 100 that
sends 51 requests spaced 1 ms apart ends at health -2, outside [0, 100];
so health does not always stay within the closed interval [0, 100]. -/
theorem c5_counterexample :
    (runRateLimiter exampleConfig { health := 100, lastRequestTimestamp := 0 }
        exampleTimes).health = -2 ∧
    ¬ (0 ≤ (runRateLimiter exampleConfig { health := 100, lastRequestTimestamp := 0 }
        exampleTimes).health) := by
  have h : (runRateLimiter exampleConfig { health := 100, lastRequestTimestamp := 0 }
      exampleTimes).health = -2 := by
    norm_num [runRateLimiter, exampleTimes, exampleConfig, rateLimiterStep]
  refine ⟨h, ?_⟩
  rw [h]
  norm_num

/-- C5 (amended): with a nonnegative penalty factor and an initial health of
at most 100, the health never exceeds 100 after any sequence of admission
events; an accepted admission always leaves health strictly positive, and a
TID whose health is at most 0 has a penalty-window request rejected, so no
request is accepted until a reward raises health above 0. -/
theorem c5_health_capped_and_gate (cfg : RLConfig) (t : ClientTidData)
    (times : List Int) (hp : 0 ≤ cfg.penaltyFactor) (h0 : t.health ≤ 100) :
    (runRateLimiter cfg t times).health ≤ 100 ∧
    (∀ (now : Int) (u : ClientTidData), (rateLimiterStep cfg now u).1 = true →
      0 < (rateLimiterStep cfg now u).2.health) ∧
    (∀ (now : Int) (u : ClientTidData), u.health ≤ 0 →
      now - u.lastRequestTimestamp < cfg.delta →
      (rateLimiterStep cfg now u).1 = false) := by
  refine ⟨?_, ?_, ?_⟩
  · induction times generalizing t with
    | nil => exact h0
    | cons now rest ih =>
      rw [runRateLimiter, List.foldl_cons]
      apply ih
      by_cases hlt : now - t.lastRequestTimestamp < cfg.delta
      · simp only [rateLimiterStep, if_pos hlt]
        calc t.health - cfg.penaltyFactor ≤ t.health := sub_le_self _ hp
          _ ≤ 100 := h0
      · simp only [rateLimiterStep, if_neg hlt]
        exact min_le_right _ _
  · intro now u hacc
    simp only [rateLimiterStep, decide_eq_true_eq] at hacc
    exact hacc
  · intro now u hu hlt
    simp only [rateLimiterStep, if_pos hlt, decide_eq_false_iff_not, not_lt]
    calc u.health - cfg.penaltyFactor ≤ u.health := sub_le_self _ hp
      _ ≤ 0 := hu

/-- C5 witness: the amended statement evaluated at the example
configuration: one spaced-out event keeps health at the 100 cap, and a
client at health -1 firing inside the window is rejected. -/
theorem c5_health_capped_and_gate_witness :
    (runRateLimiter exampleConfig { health := 100, lastRequestTimestamp := 0 }
        [10]).health ≤ 100 ∧
    (rateLimiterStep exampleConfig 2
        { health := -1, lastRequestTimestamp := 0 }).1 = false :=
  ⟨(c5_health_capped_and_gate exampleConfig
      { health := 100, lastRequestTimestamp := 0 } [10]
      (by norm_num [exampleConfig]) (by norm_num)).1,
   (c5_health_capped_and_gate exampleConfig
      { health := 100, lastRequestTimestamp := 0 } []
      (by norm_num [exampleConfig]) (by norm_num)).2.2 2
      { health := -1, lastRequestTimestamp := 0 } (by norm_num) (by decide)⟩

/-! Counting lemmas for handles across the priority lists. -/

theorem priority_cases (p : Priority) : p = 0 ∨ p = 1 ∨ p = 2 ∨ p = 3 := by
  fin_cases p <;> decide

theorem handleCount_eq (L : PrioLists) (h : Nat) :
    handleCount L h =
      (L 0).countP (fun x => x.handle == h) + (L 1).countP (fun x => x.handle == h) +
      (L 2).countP (fun x => x.handle == h) + (L 3).countP (fun x => x.handle == h) := rfl

theorem hasHandle_eq_false_iff (l : List CocoNode) (h : Nat) :
    hasHandle l h = false ↔ l.countP (fun x => x.handle == h) = 0 := by
  induction l with
  | nil => simp [hasHandle]
  | cons x xs ih =>
    cases hb : (x.handle == h) with
    | true => simp [hasHandle, List.any_cons, hb, List.countP_cons]
    | false => simp [hasHandle, List.any_cons, hb, List.countP_cons, ← ih, hasHandle]

theorem countP_eraseHandle (l : List CocoNode) (h : Nat) (hl : hasHandle l h = true) :
    l.countP (fun x => x.handle == h) =
      (eraseHandle h l).countP (fun x => x.handle == h) + 1 := by
  induction l with
  | nil => simp [hasHandle] at hl
  | cons x xs ih =>
    cases hb : (x.handle == h) with
    | true => simp [eraseHandle, hb, List.countP_cons]
    | false =>
      have hl2 : hasHandle xs h = true := by
        simp [hasHandle, List.any_cons, hb] at hl
        simp [hasHandle, hl]
      simp [eraseHandle, hb, List.countP_cons, ih hl2]

theorem findScan_none_elim (L : PrioLists) (h : Nat) (k : Nat)
    (hn : findScan L h k = none) :
    ∀ q : Priority, q.val < k → hasHandle (L q) h = false := by
  induction k with
  | zero =>
    intro q hq
    omega
  | succ k ih =>
    by_cases hk : k < 4
    · by_cases hh : hasHandle (L ⟨k, hk⟩) h = true
      · rw [findScan, dif_pos hk, if_pos hh] at hn
        cases hn
      · have hh' : hasHandle (L ⟨k, hk⟩) h = false := by
          revert hh
          cases hasHandle (L ⟨k, hk⟩) h <;> simp
        rw [findScan, dif_pos hk, if_neg hh] at hn
        intro q hq
        rcases Nat.lt_succ_iff_lt_or_eq.mp hq with h1 | h1
        · exact ih hn q h1
        · have hq2 : q = ⟨k, hk⟩ := Fin.ext h1
          rw [hq2]
          exact hh'
    · rw [findScan, dif_neg hk] at hn
      intro q hq
      have := q.isLt
      exact ih hn q (by omega)

theorem removeRequest_not_found (h : Nat) (s : CocoState)
    (hf : findPriority s.lists h = none) : removeRequest h s = s := by
  simp only [removeRequest, hf]

theorem removeRequest_lists (h : Nat) (s : CocoState) (p : Priority)
    (hf : findPriority s.lists h = some p) :
    (removeRequest h s).lists = updLists s.lists p (eraseHandle h (s.lists p)) := by
  simp only [removeRequest, hf]
  by_cases hwh : (s.lists p).head?.map CocoNode.handle = some h ∧ s.appliedPriority = some p
  · rw [if_pos hwh]
    cases hcas : scanFromPriority (updLists s.lists p (eraseHandle h (s.lists p))) p <;> rfl
  · rw [if_neg hwh]

theorem removeRequest_no_handle (h : Nat) (s : CocoState)
    (hc : handleCount s.lists h ≤ 1) :
    findPriority (removeRequest h s).lists h = none := by
  cases hf : findPriority s.lists h with
  | none =>
    rw [removeRequest_not_found h s hf]
    exact hf
  | some p =>
    have hhas : hasHandle (s.lists p) h = true := findScan_some _ _ _ _ hf
    have hcp : (s.lists p).countP (fun x => x.handle == h) =
        (eraseHandle h (s.lists p)).countP (fun x => x.handle == h) + 1 :=
      countP_eraseHandle _ _ hhas
    rw [removeRequest_lists h s p hf]
    apply findScan_none_intro
    intro q
    by_cases hqp : q = p
    · subst hqp
      rw [updLists_same, hasHandle_eq_false_iff]
      have hle : (s.lists q).countP (fun x => x.handle == h) ≤ 1 := by
        rcases priority_cases q with rfl | rfl | rfl | rfl <;>
          (rw [handleCount_eq] at hc; omega)
      omega
    · rw [updLists_other _ _ _ _ hqp, hasHandle_eq_false_iff]
      rcases priority_cases q with rfl | rfl | rfl | rfl <;>
        rcases priority_cases p with rfl | rfl | rfl | rfl <;>
          first
          | exact absurd rfl hqp
          | (rw [handleCount_eq] at hc; omega)

/-- C6: Untune is idempotent: when the handle owns at most one linked node,
a second Untune of the same handle leaves the table and timer state exactly
as the first left them; and an Untune (such as a timer-expiry fire) whose
handle is not linked anywhere is a no-op on the table. -/
theorem c6_untune_idempotent (s : TableState) (h : Nat)
    (hc : handleCount s.coco.lists h ≤ 1) :
    untuneFull h (untuneFull h s) = untuneFull h s ∧
    (findPriority s.coco.lists h = none → removeRequest h s.coco = s.coco) := by
  constructor
  · have hcoco : removeRequest h (removeRequest h s.coco) = removeRequest h s.coco :=
      removeRequest_not_found h _ (removeRequest_no_handle h s.coco hc)
    simp only [untuneFull]
    rw [hcoco]
    congr 1
    funext k
    by_cases hk : k = h
    · simp [hk]
    · simp [hk]
  · intro hf
    exact removeRequest_not_found h s.coco hf

/-- C6 witness: untuning handle 5 of the example table twice equals
untuning it once, and untuning the absent handle 77 changes nothing. -/
theorem c6_untune_idempotent_witness :
    untuneFull 5 (untuneFull 5 exampleTable) = untuneFull 5 exampleTable ∧
    removeRequest 77 exampleTable.coco = exampleTable.coco :=
  ⟨(c6_untune_idempotent exampleTable 5 (by decide)).1,
   (c6_untune_idempotent exampleTable 77 (by decide)).2 (by decide)⟩

/-- C7: every request rejected at admission (permission, thread cap, rate
limit, or global capacity) surfaces the error to the caller and leaves the
CocoTable slice untouched: priority lists, applied value and the
currently-applied priority scalar are those of the pre-request state. -/
theorem c7_rejection_preserves_coco (cfg : RLConfig) (now : Int)
    (permitted threadCapExceeded : Bool) (tid : Nat) (pol : Policy) (n : CocoNode)
    (p : Priority) (s : SysState) (e : AdmissionError) (s₂ : SysState)
    (hrej : processTune cfg now permitted threadCapExceeded tid pol n p s =
      (.error e, s₂)) : s₂.coco = s.coco := by
  simp only [processTune] at hrej
  split at hrej
  · injection hrej with _ hb
    rw [← hb]
  · split at hrej
    · injection hrej with _ hb
      rw [← hb]
    · split at hrej
      · injection hrej with _ hb
        rw [← hb]
      · split at hrej
        · injection hrej with _ hb
          rw [← hb]
        · injection hrej with ha _
          cases ha

/-- C7 witness: a permission-denied request against the example server
state leaves the CocoTable component untouched. -/
theorem c7_rejection_preserves_coco_witness :
    (processTune exampleConfig 3 false false 1 .instantApply ⟨1, 2⟩ 3 exampleSys).2.coco =
      exampleSys.coco :=
  c7_rejection_preserves_coco exampleConfig 3 false false 1 .instantApply ⟨1, 2⟩ 3
    exampleSys .permissionDenied exampleSys rfl

/-- C8: a failed allocation of the CocoTable singleton during init yields
the null instance and an aborted startup, while a failed allocation while
handling a single request after startup rejects that request as a
validation failure, changes no table state, and keeps the server running. -/
theorem c8_oom_startup_vs_midlife :
    serverStartup false = .aborted ∧
    serverStartup true = .running ∧
    getInstance none false = none ∧
    (∀ u : Unit, getInstance (some u) false = some u) ∧
    (∀ (pol : Policy) (n : CocoNode) (p : Priority) (s : CocoState),
      handleRequestWithAllocation false pol n p s = (.rejectedValidation, s, .running)) :=
  ⟨rfl, rfl, rfl, fun _ => rfl, fun _ _ _ _ => rfl⟩

/-! Garbage collector lemmas. -/

theorem lookupClient_erase_self (cdm : List (Nat × List Nat)) (pid : Nat) :
    lookupClient (eraseClient cdm pid) pid = none := by
  induction cdm with
  | nil => rfl
  | cons e es ih =>
    have ih2 : lookupClient (List.filter (fun x => !(x.1 == pid)) es) pid = none := by
      simpa [eraseClient] using ih
    by_cases he : e.1 = pid <;>
      simp [eraseClient, lookupClient, List.filter_cons, he, ih2]

theorem lookupClient_erase_other (cdm : List (Nat × List Nat)) (q pid : Nat)
    (hne : pid ≠ q) :
    lookupClient (eraseClient cdm q) pid = lookupClient cdm pid := by
  have hq : ¬ (q = pid) := fun hh => hne hh.symm
  induction cdm with
  | nil => rfl
  | cons e es ih =>
    have ih2 : lookupClient (List.filter (fun x => !(x.1 == q)) es) pid =
        lookupClient es pid := by
      simpa [eraseClient] using ih
    by_cases he : e.1 = q <;>
      simp [eraseClient, lookupClient, List.filter_cons, he, ih2, hq]

theorem lookupClient_clear_self (cdm : List (Nat × List Nat)) (pid : Nat) :
    lookupClient (clearClientHandles cdm pid) pid =
      (lookupClient cdm pid).map (fun _ => ([] : List Nat)) := by
  induction cdm with
  | nil => rfl
  | cons e es ih =>
    have ih2 : lookupClient
        (List.map (fun x => if x.1 = pid then (x.1, ([] : List Nat)) else x) es) pid =
        (lookupClient es pid).map (fun _ => ([] : List Nat)) := by
      simpa [clearClientHandles] using ih
    by_cases he : e.1 = pid <;>
      simp [clearClientHandles, lookupClient, he, ih2]

theorem lookupClient_clear_other (cdm : List (Nat × List Nat)) (q pid : Nat)
    (hne : pid ≠ q) :
    lookupClient (clearClientHandles cdm q) pid = lookupClient cdm pid := by
  have hq : ¬ (q = pid) := fun hh => hne hh.symm
  induction cdm with
  | nil => rfl
  | cons e es ih =>
    have ih2 : lookupClient
        (List.map (fun x => if x.1 = q then (x.1, ([] : List Nat)) else x) es) pid =
        lookupClient es pid := by
      simpa [clearClientHandles] using ih
    by_cases he : e.1 = q <;>
      simp [clearClientHandles, lookupClient, he, ih2, hq]

theorem cleanupClient_lookup_other (s : GcState) (q pid : Nat) (hne : pid ≠ q) :
    lookupClient (cleanupClient s q).clientEntries pid =
      lookupClient s.clientEntries pid := by
  cases hl : lookupClient s.clientEntries q with
  | none => simp only [cleanupClient, hl]
  | some hs =>
    by_cases hnil : hs = []
    · simp only [cleanupClient, hl, if_pos hnil]
      exact lookupClient_erase_other s.clientEntries q pid hne
    · simp only [cleanupClient, hl, if_neg hnil]
      exact lookupClient_clear_other s.clientEntries q pid hne

theorem cleanupClient_lookup_none (s : GcState) (q pid : Nat)
    (h : lookupClient s.clientEntries pid = none) :
    lookupClient (cleanupClient s q).clientEntries pid = none := by
  by_cases hq : pid = q
  · subst hq
    simp only [cleanupClient, h]
  · rw [cleanupClient_lookup_other s q pid hq]
    exact h

theorem cleanupClient_queue (s : GcState) (q : Nat) :
    (cleanupClient s q).gcQueue = s.gcQueue ∨
    (cleanupClient s q).gcQueue = s.gcQueue ++ [q] := by
  cases hl : lookupClient s.clientEntries q with
  | none =>
    left
    simp only [cleanupClient, hl]
  | some hs =>
    by_cases hnil : hs = []
    · left
      simp only [cleanupClient, hl, if_pos hnil]
    · right
      simp only [cleanupClient, hl, if_neg hnil]

theorem gcSettled_step (s : GcState) (pid q : Nat) (hg : gcSettled s pid) :
    gcSettled (cleanupClient s q) pid := by
  by_cases hq : pid = q
  · subst hq
    rcases hg with h | ⟨h, _⟩
    · left
      exact cleanupClient_lookup_none s pid pid h
    · left
      simp only [cleanupClient, h, if_pos rfl]
      exact lookupClient_erase_self s.clientEntries pid
  · rcases hg with h | ⟨h, hmem⟩
    · left
      rw [cleanupClient_lookup_other s q pid hq]
      exact h
    · right
      refine ⟨by rw [cleanupClient_lookup_other s q pid hq]; exact h, ?_⟩
      rcases cleanupClient_queue s q with hq2 | hq2 <;> rw [hq2]
      · exact hmem
      · exact List.mem_append_left _ hmem

theorem gcSettled_self (s : GcState) (pid : Nat) : gcSettled (cleanupClient s pid) pid := by
  cases hl : lookupClient s.clientEntries pid with
  | none =>
    left
    simp only [cleanupClient, hl]
  | some hs =>
    by_cases hnil : hs = []
    · left
      simp only [cleanupClient, hl, if_pos hnil]
      exact lookupClient_erase_self s.clientEntries pid
    · right
      simp only [cleanupClient, hl, if_neg hnil]
      constructor
      · rw [lookupClient_clear_self, hl]
        rfl
      · exact List.mem_append_right _ (by simp)

theorem gcSettled_fold (batch : List Nat) (s : GcState) (pid : Nat)
    (hg : gcSettled s pid ∨ pid ∈ batch) :
    gcSettled (batch.foldl cleanupClient s) pid := by
  induction batch generalizing s with
  | nil =>
    rcases hg with h | h
    · exact h
    · cases h
  | cons q rest ih =>
    rw [List.foldl_cons]
    apply ih
    rcases hg with h | h
    · left
      exact gcSettled_step s pid q h
    · rcases List.mem_cons.mp h with rfl | h2
      · left
        exact gcSettled_self s pid
      · right
        exact h2

theorem lookupClient_fold_none (batch : List Nat) (s : GcState) (pid : Nat)
    (h : lookupClient s.clientEntries pid = none) :
    lookupClient (batch.foldl cleanupClient s).clientEntries pid = none := by
  induction batch generalizing s with
  | nil => exact h
  | cons q rest ih =>
    rw [List.foldl_cons]
    exact ih _ (cleanupClient_lookup_none s q pid h)

theorem lookupClient_fold_other (batch : List Nat) (s : GcState) (pid : Nat)
    (h : pid ∉ batch) :
    lookupClient (batch.foldl cleanupClient s).clientEntries pid =
      lookupClient s.clientEntries pid := by
  induction batch generalizing s with
  | nil => rfl
  | cons q rest ih =>
    rw [List.foldl_cons]
    have hq : pid ≠ q := fun hh => h (hh ▸ List.mem_cons_self q rest)
    have hrest : pid ∉ rest := fun hh => h (List.mem_cons_of_mem q hh)
    rw [ih _ hrest]
    exact cleanupClient_lookup_other s q pid hq

theorem lookupClient_fold_erased (batch : List Nat) (s : GcState) (pid : Nat)
    (hmem : pid ∈ batch)
    (h : lookupClient s.clientEntries pid = none ∨
         lookupClient s.clientEntries pid = some []) :
    lookupClient (batch.foldl cleanupClient s).clientEntries pid = none := by
  induction batch generalizing s with
  | nil => cases hmem
  | cons q rest ih =>
    rw [List.foldl_cons]
    by_cases hq : pid = q
    · subst hq
      apply lookupClient_fold_none
      rcases h with h | h
      · exact cleanupClient_lookup_none s pid pid h
      · simp only [cleanupClient, h, if_pos rfl]
        exact lookupClient_erase_self s.clientEntries pid
    · rcases List.mem_cons.mp hmem with h1 | h1
      · exact absurd h1 hq
      · apply ih _ h1
        rw [cleanupClient_lookup_other s q pid hq]
        exact h

theorem fold_queue_length (batch : List Nat) (s : GcState) :
    (batch.foldl cleanupClient s).gcQueue.length ≤ s.gcQueue.length + batch.length := by
  induction batch generalizing s with
  | nil => simp
  | cons q rest ih =>
    rw [List.foldl_cons]
    have h1 := ih (cleanupClient s q)
    have h2 : (cleanupClient s q).gcQueue.length ≤ s.gcQueue.length + 1 := by
      rcases cleanupClient_queue s q with h | h <;> rw [h] <;> simp
    simp only [List.length_cons]
    omega

theorem gc_take_all {α : Type} (l : List α) (n : Nat) (h : l.length ≤ n) :
    l.take n = l := by
  induction l generalizing n with
  | nil => simp
  | cons x xs ih =>
    cases n with
    | zero => simp at h
    | succ n =>
      rw [List.take_succ_cons, ih n (by simpa using h)]

theorem gc_drop_all {α : Type} (l : List α) (n : Nat) (h : l.length ≤ n) :
    l.drop n = [] := by
  induction l generalizing n with
  | nil => simp
  | cons x xs ih =>
    cases n with
    | zero => simp at h
    | succ n =>
      rw [List.drop_succ_cons, ih n (by simpa using h)]

theorem performCleanup_two_ticks (cap : Nat) (s : GcState) (pid : Nat)
    (hlen : s.gcQueue.length ≤ cap) (hmem : pid ∈ s.gcQueue) :
    lookupClient (performCleanup cap (performCleanup cap s)).clientEntries pid = none := by
  have htake : s.gcQueue.take cap = s.gcQueue := gc_take_all _ _ hlen
  have hdrop : s.gcQueue.drop cap = [] := gc_drop_all _ _ hlen
  have hs1 : performCleanup cap s =
      s.gcQueue.foldl cleanupClient { gcQueue := [], clientEntries := s.clientEntries } := by
    unfold performCleanup
    rw [htake, hdrop]
  have hset : gcSettled (performCleanup cap s) pid := by
    rw [hs1]
    exact gcSettled_fold _ _ _ (Or.inr hmem)
  have hlen1 : (performCleanup cap s).gcQueue.length ≤ cap := by
    rw [hs1]
    have hfl := fold_queue_length s.gcQueue
      { gcQueue := [], clientEntries := s.clientEntries }
    simp only [List.length_nil] at hfl
    omega
  rcases hset with hnone | ⟨hsome, hmem2⟩
  · unfold performCleanup
    exact lookupClient_fold_none _ _ _ hnone
  · have htake2 : (performCleanup cap s).gcQueue.take cap = (performCleanup cap s).gcQueue :=
      gc_take_all _ _ hlen1
    conv_lhs => rw [performCleanup, htake2]
    exact lookupClient_fold_erased _ _ _ hmem2 (Or.inr hsome)

/-- C9 counterexample: with a batch cap of 1 and three dead PIDs queued,
PID 3 (which still holds handle 7) is not even dequeued during the first
two GC ticks: after two ticks its tracking entry still holds handle 7, so
cleanup within at most two ticks does not hold for every dead PID. -/
theorem c9_counterexample :
    3 ∈ exampleGcBacklog.gcQueue ∧
    lookupClient (performCleanup 1 (performCleanup 1 exampleGcBacklog)).clientEntries 3 =
      some [7] := by
  decide

/-- C9 (amended): each GC tick touches only the tracking entries of the at
most batch-cap PIDs it dequeues; a dequeued PID that still holds handles
has synthetic Untunes submitted (its handles are cleared) and is re-enqueued
at the tail of the GC queue; and when the whole queue fits within the batch
cap, every queued PID has its tracking entry fully erased within two ticks. -/
theorem c9_gc_bounded_cleanup :
    (∀ (cap : Nat) (s : GcState) (pid : Nat), pid ∉ s.gcQueue.take cap →
      lookupClient (performCleanup cap s).clientEntries pid =
        lookupClient s.clientEntries pid) ∧
    (∀ (s : GcState) (pid : Nat) (hs : List Nat),
      lookupClient s.clientEntries pid = some hs → hs ≠ [] →
      (cleanupClient s pid).gcQueue = s.gcQueue ++ [pid] ∧
      lookupClient (cleanupClient s pid).clientEntries pid = some []) ∧
    (∀ (cap : Nat) (s : GcState) (pid : Nat), s.gcQueue.length ≤ cap →
      pid ∈ s.gcQueue →
      lookupClient (performCleanup cap (performCleanup cap s)).clientEntries pid = none) := by
  refine ⟨?_, ?_, fun cap s pid hlen hmem => performCleanup_two_ticks cap s pid hlen hmem⟩
  · intro cap s pid hout
    unfold performCleanup
    exact lookupClient_fold_other _ _ _ hout
  · intro s pid hs hl hne
    constructor
    · simp only [cleanupClient, hl, if_neg hne]
    · simp only [cleanupClient, hl, if_neg hne]
      rw [lookupClient_clear_self, hl]
      rfl

/-- C9 witness: the amended statement evaluated on the example queues: a
PID outside the first batch is untouched, a PID with pending handles is
re-enqueued at the tail with its handles cleared, and a two-element queue
under batch cap 2 is fully erased within two ticks. -/
theorem c9_gc_bounded_cleanup_witness :
    lookupClient (performCleanup 1 exampleGcBacklog).clientEntries 3 =
      lookupClient exampleGcBacklog.clientEntries 3 ∧
    (cleanupClient exampleGcSmall 4).gcQueue = exampleGcSmall.gcQueue ++ [4] ∧
    lookupClient (performCleanup 2 (performCleanup 2 exampleGcSmall)).clientEntries 4 =
      none :=
  ⟨c9_gc_bounded_cleanup.1 1 exampleGcBacklog 3 (by decide),
   (c9_gc_bounded_cleanup.2.1 exampleGcSmall 4 [11, 12] (by decide) (by decide)).1,
   c9_gc_bounded_cleanup.2.2 2 exampleGcSmall 4 (by decide) (by decide)⟩

theorem labelToType_mem (lbl : String) :
    labelToType lbl = .CC_APP ∨ labelToType lbl = .CC_BROWSER ∨
    labelToType lbl = .CC_GAME ∨ labelToType lbl = .CC_MULTIMEDIA := by
  unfold labelToType
  split_ifs <;> simp

theorem labelToType_default (lbl : String) (hb : lbl ≠ "browser")
    (hg : lbl ≠ "game") (hm : lbl ≠ "media") : labelToType lbl = .CC_APP := by
  unfold labelToType
  split_ifs <;> simp_all

theorem classify_shape (collectRc : Int) (a1 a2 : Bool)
    (raw : List (String × String)) (ft : Option String) :
    Classify collectRc a1 a2 raw ft = .CC_APP ∨
    (collectRc = 0 ∧ a1 = true ∧ a2 = true ∧ hasSufficientFeatures raw = true ∧
     Classify collectRc a1 a2 raw ft =
       labelToType (if (predict raw ft).2 ≠ 0 then "" else (predict raw ft).1)) := by
  unfold Classify
  by_cases h1 : collectRc ≠ 0
  · rw [if_pos h1]
    exact Or.inl rfl
  · rw [if_neg h1]
    by_cases h2 : a1 = false
    · rw [if_pos h2]
      exact Or.inl rfl
    · rw [if_neg h2]
      by_cases h3 : hasSufficientFeatures raw = true
      · rw [if_pos h3]
        by_cases h4 : a2 = false
        · rw [if_pos h4]
          exact Or.inl rfl
        · rw [if_neg h4]
          right
          refine ⟨by omega, ?_, ?_, h3, rfl⟩
          · cases a1
            · exact absurd rfl h2
            · rfl
          · cases a2
            · exact absurd rfl h4
            · rfl
      · rw [if_neg h3]
        exact Or.inl rfl

/-- C10: Classify always returns one of the four CC_TYPE values, and it
returns the default CC_APP whenever feature collection fails (nonzero
return code), the /proc directory of the process has vanished (either
liveness check), every collected feature string is empty, the prediction
call returns a nonzero code, or the predicted label is none of browser,
game, media; in particular the Unknown label of a failed predict never
escapes. -/
theorem c10_classify_defaults (collectRc : Int) (a1 a2 : Bool)
    (raw : List (String × String)) (ft : Option String) :
    (Classify collectRc a1 a2 raw ft = .CC_APP ∨
     Classify collectRc a1 a2 raw ft = .CC_BROWSER ∨
     Classify collectRc a1 a2 raw ft = .CC_GAME ∨
     Classify collectRc a1 a2 raw ft = .CC_MULTIMEDIA) ∧
    (collectRc ≠ 0 → Classify collectRc a1 a2 raw ft = .CC_APP) ∧
    (a1 = false → Classify collectRc a1 a2 raw ft = .CC_APP) ∧
    (a2 = false → Classify collectRc a1 a2 raw ft = .CC_APP) ∧
    ((∀ kv ∈ raw, kv.2 = "") → Classify collectRc a1 a2 raw ft = .CC_APP) ∧
    ((predict raw ft).2 ≠ 0 → Classify collectRc a1 a2 raw ft = .CC_APP) ∧
    ((predict raw ft).1 ≠ "browser" → (predict raw ft).1 ≠ "game" →
      (predict raw ft).1 ≠ "media" → Classify collectRc a1 a2 raw ft = .CC_APP) := by
  refine ⟨?_, ?_, ?_, ?_, ?_, ?_, ?_⟩
  · rcases classify_shape collectRc a1 a2 raw ft with h | ⟨_, _, _, _, h⟩
    · exact Or.inl h
    · rw [h]
      exact labelToType_mem _
  · intro hrc
    rcases classify_shape collectRc a1 a2 raw ft with h | ⟨h0, _⟩
    · exact h
    · exact absurd h0 hrc
  · intro ha
    rcases classify_shape collectRc a1 a2 raw ft with h | ⟨_, h1, _⟩
    · exact h
    · rw [ha] at h1
      cases h1
  · intro ha
    rcases classify_shape collectRc a1 a2 raw ft with h | ⟨_, _, h2, _⟩
    · exact h
    · rw [ha] at h2
      cases h2
  · intro hall
    have hs : hasSufficientFeatures raw = false := by
      unfold hasSufficientFeatures
      rw [List.any_eq_false]
      intro kv hkv
      simp [hall kv hkv]
    rcases classify_shape collectRc a1 a2 raw ft with h | ⟨_, _, _, h3, _⟩
    · exact h
    · rw [hs] at h3
      cases h3
  · intro hrc
    rcases classify_shape collectRc a1 a2 raw ft with h | ⟨_, _, _, _, h⟩
    · exact h
    · rw [h, if_pos hrc]
      decide
  · intro hb hg hm
    rcases classify_shape collectRc a1 a2 raw ft with h | ⟨_, _, _, _, h⟩
    · exact h
    · rw [h]
      by_cases hrc : (predict raw ft).2 ≠ 0
      · rw [if_pos hrc]
        decide
      · rw [if_neg hrc]
        exact labelToType_default _ hb hg hm

/-- C10 witness: a failed collection returns CC_APP even with a browser
label available, and a PID whose prediction fails (no fastText output)
returns CC_APP rather than an Unknown value. -/
theorem c10_classify_defaults_witness :
    Classify 1 true true [("comm", "Chrome")] (some "__label__browser") = .CC_APP ∧
    Classify 0 true true [("comm", "X")] none = .CC_APP :=
  ⟨(c10_classify_defaults 1 true true [("comm", "Chrome")]
      (some "__label__browser")).2.1 (by decide),
   (c10_classify_defaults 0 true true [("comm", "X")] none).2.2.2.2.2.1 (by decide)⟩
